import Mathlib

/-!
Verification development for the resume-analyzer repository.

Python strings are modelled as `List Char` (`Str` below); Python's string
primitives (`strip`, `split`, `lower`, `in`, slicing, `replace`, `title`,
sorting) are given executable definitions mirroring CPython semantics on the
ASCII inputs the program handles.  Regex searches appearing in the code
(`\b`-anchored literal search, the e-mail/phone/URL patterns) are modelled by
explicit matchers that reproduce Python's leftmost / greedy / backtracking
behaviour for those concrete patterns (all of whose quantifiers either are
bounded or consume a character class disjoint from the following literal, so
the backtracking order flattens into an explicit preference list).
-/

/-- Python string, modelled as its list of characters. -/
abbrev Str := List Char

/-- Python whitespace test (`str.isspace` on a char) for the characters the
program handles: space, tab, newline, carriage return, vertical tab, form feed. -/
def pyIsSpace (c : Char) : Bool :=
  c = ' ' || c = '\t' || c = '\n' || c = '\r' || c = (Char.ofNat 11) || c = (Char.ofNat 12)

/-- Python `str.lower`, on ASCII characters. -/
def toLowerStr (s : Str) : Str := s.map Char.toLower

/-- Drop leading whitespace (left part of Python `str.strip`). -/
def trimL (s : Str) : Str := s.dropWhile pyIsSpace

/-- Python `str.strip()` (no argument): drop leading and trailing whitespace. -/
def trimStr (s : Str) : Str := (trimL ((trimL s).reverse)).reverse

/-- Python substring containment `needle in hay`. -/
def containsSub (needle hay : Str) : Bool :=
  hay.tails.any (fun t => needle.isPrefixOf t)

/-- Python `text.split('\n')`. -/
def splitNl : Str → List Str
  | [] => [[]]
  | c :: rest =>
    if c = '\n' then [] :: splitNl rest
    else
      match splitNl rest with
      | [] => [[c]]
      | h :: t => (c :: h) :: t

/-- Python `'\n'.join(lines)`. -/
def intercalateNl : List Str → Str
  | [] => []
  | [l] => l
  | l :: rest => l ++ '\n' :: intercalateNl rest

/-- Python `str.split()` (no argument): split on whitespace runs, no empties. -/
def splitWs (s : Str) : List Str :=
  ((splitNl (s.map (fun c => if pyIsSpace c then '\n' else c)))).filter (· ≠ [])

/-- Python `str.splitlines()` (handling `\n`, `\r\n` and `\r` terminators):
the accumulated line is emitted at each terminator, and at the end of input
only if it is nonempty or some text preceded it on that line.  `aux` carries
the current (reversed) line. -/
def splitlinesAux : Str → Str → List Str
  | acc, [] => if acc = [] then [] else [acc.reverse]
  | acc, '\n' :: rest => acc.reverse :: splitlinesAux [] rest
  | acc, '\r' :: '\n' :: rest => acc.reverse :: splitlinesAux [] rest
  | acc, '\r' :: rest => acc.reverse :: splitlinesAux [] rest
  | acc, c :: rest => splitlinesAux (c :: acc) rest

/-- Python `text.splitlines()`. -/
def pySplitlines (s : Str) : List Str := splitlinesAux [] s

/-- Python `str.isupper()`: at least one cased character and no lowercase one. -/
def pyIsUpper (s : Str) : Bool :=
  s.any Char.isAlpha && s.all (fun c => ¬ c.isLower)

/-- One step of Python `str.title()`: uppercase a letter not preceded by a
letter, lowercase the others.  The boolean records whether the previous
character was a letter. -/
def pyTitleAux : Bool → Str → Str
  | _, [] => []
  | prevAlpha, c :: rest =>
    if c.isAlpha then
      (if prevAlpha then c.toLower else c.toUpper) :: pyTitleAux true rest
    else
      c :: pyTitleAux false rest

/-- Python `str.title()`, on ASCII characters. -/
def pyTitle (s : Str) : Str := pyTitleAux false s

/-- Python string comparison `a < b` (lexicographic on code points). -/
def lexLt : Str → Str → Bool
  | [], [] => false
  | [], _ :: _ => true
  | _ :: _, [] => false
  | a :: as, b :: bs => if a = b then lexLt as bs else decide (a < b)

/-- Boolean `≤` on modelled strings, used for Python `sorted`. -/
def lexLe (a b : Str) : Bool := ! lexLt b a

/-- Insert into a `lexLe`-sorted list (insertion sort step). -/
def insertLe (x : Str) : List Str → List Str
  | [] => [x]
  | y :: ys => if lexLe x y then x :: y :: ys else y :: insertLe x ys

/-- Python `sorted` on a list of strings (insertion sort; agrees with Python's
stable sort because `lexLe` is a total order). -/
def sortStr : List Str → List Str
  | [] => []
  | x :: xs => insertLe x (sortStr xs)

/-- Scan of Python `str.replace(pat, rep)`: replace every occurrence, left to
right, non-overlapping.  The fuel starts at the length of the string; every
step consumes at least one character (the pattern is nonempty whenever it
fires), so the fuel never runs out. -/
def replaceAllAux (pat rep : Str) : Nat → Str → Str
  | _, [] => []
  | 0, s => s
  | fuel + 1, c :: rest =>
    if pat ≠ [] ∧ pat.isPrefixOf (c :: rest) then
      rep ++ replaceAllAux pat rep fuel ((c :: rest).drop pat.length)
    else
      c :: replaceAllAux pat rep fuel rest

/-- Python `str.replace(pat, rep)` for a nonempty `pat`.  (The program only
calls it with nonempty patterns; an empty pattern replaces nothing here.) -/
def replaceAll (pat rep : Str) (s : Str) : Str := replaceAllAux pat rep s.length s

/-- Python `str.split(sep)[0]` pattern: the text up to the first occurrence of
the character `sep` (the whole string if absent). -/
def takeUntilChar (sep : Char) (s : Str) : Str := s.takeWhile (· ≠ sep)

/-- Membership of a string in a sorted-set model: first element access with a
default (Python `lines[i]` under a length guard). -/
def getLineD (l : List Str) (i : Nat) : Str := l.getD i []

namespace Extractor

/-- The `TECH_WORDS` vocabulary from `app/services/extractor.py` (verbatim,
including the duplicate `"cnn"`). -/
def TECH_WORDS : List String := [
  "python", "java", "c++", "c#", "javascript", "typescript", "go", "rust", "r", "scala", "kotlin",
  "fastapi", "flask", "django", "spring", "nodejs", "express", "next.js", "nextjs", "vue.js", "nuxt",
  "pandas", "numpy", "scipy", "scikit-learn", "sklearn", "matplotlib", "seaborn", "plotly",
  "statsmodels", "xgboost", "lightgbm", "catboost", "eda", "statistical analysis",
  "sql", "mysql", "postgres", "postgresql", "mongodb", "redis", "cassandra", "dynamodb", "elasticsearch",
  "aws", "azure", "gcp", "docker", "kubernetes", "jenkins", "gitlab", "github", "circleci",
  "spark", "hadoop", "kafka", "airflow", "dbt", "hive", "presto",
  "pytorch", "tensorflow", "keras", "torch", "onnx", "transformers", "hugging face",
  "bert", "gpt", "llm", "langchain", "faiss", "rag", "llama", "openai",
  "spacy", "nltk", "gensim", "textblob", "tokenization", "nlp", "ner", "sentiment",
  "opencv", "opencv-python", "yolo", "yolov8", "yolov5", "yolov3", "cnn", "deepsort",
  "react", "vue", "angular", "svelte", "html", "css", "sass", "bootstrap", "tailwind", "d3.js",
  "git", "jupyter", "notebook", "jupyter notebook", "jira", "confluence", "notion",
  "linux", "bash", "shell", "powershell", "windows", "mac", "macos",
  "power bi", "powerbi", "tableau", "looker", "qlik", "excel", "vba",
  "regression", "classification", "random forest", "lstm", "rnn", "cnn", "gan", "mlops",
  "time series", "forecasting", "clustering", "pca", "kmeans", "ensemble", "cross validation",
  "fine-tuning", "prompt engineering", "vector databases", "embeddings", "retrieval augmented"]

/-- Regex word character (`\w` for the ASCII inputs handled): alphanumeric or
underscore. -/
def isWordChar (c : Char) : Bool := c.isAlphanum || c = '_'

/-- Whether the character at index `i` of `s` exists and is a word character. -/
def isWordAt (s : Str) (i : Nat) : Bool :=
  match s[i]? with
  | some c => isWordChar c
  | none => false

/-- Regex `\b` at position `i` of `s`: exactly one side of the position is a
word character (positions outside the string count as non-word). -/
def boundaryAt (s : Str) (i : Nat) : Bool :=
  (decide (0 < i) && isWordAt s (i - 1)) != isWordAt s i

/-- The literal string `t` occurs in `s` at index `i`. -/
def occursAt (t s : Str) (i : Nat) : Bool := t.isPrefixOf (s.drop i)

/-- Python `re.search(r'\b' + re.escape(t) + r'\b', s)` viewed as a Boolean:
some occurrence of the literal `t` is flanked by word boundaries. -/
def regexWordSearch (t s : Str) : Bool :=
  (List.range (s.length + 1)).any
    (fun i => occursAt t s i && boundaryAt s i && boundaryAt s (i + t.length))

/-- The function `extract_skills_from_text` of `app/services/extractor.py`:
collect every vocabulary term found with `\b` anchors in the lowercased text,
as a sorted duplicate-free list (`sorted(list(set(...)))`). -/
def extract_skills_from_text (text : Str) : List Str :=
  let tl := toLowerStr text
  sortStr (((TECH_WORDS.map String.data).filter (fun t => regexWordSearch t tl)).dedup)

end Extractor

namespace TextCleaner

/-- The character class `[a-z0-9+#.\s]` kept by `normalize_text` in
`app/utils/text_cleaner.py`. -/
def keepChar (c : Char) : Bool :=
  (decide ('a' ≤ c) && decide (c ≤ 'z')) || c.isDigit || c = '+' || c = '#' || c = '.' || pyIsSpace c

/-- Scan of `re.sub(r"\s+", " ", t)`: the boolean says whether the previous
character was whitespace (in which case further whitespace is absorbed into
the already-emitted space). -/
def collapseWsAux : Bool → Str → Str
  | _, [] => []
  | prevSpace, c :: rest =>
    if pyIsSpace c then
      if prevSpace then collapseWsAux true rest else ' ' :: collapseWsAux true rest
    else c :: collapseWsAux false rest

/-- Model of `re.sub(r"\s+", " ", t)`: collapse each whitespace run to a
single space. -/
def collapseWs (s : Str) : Str := collapseWsAux false s

/-- The function `normalize_text` of `app/utils/text_cleaner.py`: lowercase,
replace every character outside `[a-z0-9+#.\s]` by a space, collapse
whitespace runs and strip. -/
def normalize_text (text : Str) : Str :=
  trimStr (collapseWs ((toLowerStr text).map (fun c => if keepChar c then c else ' ')))

end TextCleaner

namespace SkillMatcher

/-- The `DEFAULT_SKILL_VOCAB` list of `app/services/skill_matcher.py`. -/
def DEFAULT_SKILL_VOCAB : List String := [
  "python","fastapi","flask","django","nlp","spacy","nltk","bert","transformers",
  "pandas","numpy","sql","mongodb","postgres","aws","docker","kubernetes","spark"]

/-- The function `extract_skills_from_text` of `app/services/skill_matcher.py`:
normalize the text, split it into whitespace tokens, and return the sorted
vocabulary terms appearing among the tokens. -/
def extract_skills_from_text (text : Str) : List Str :=
  let t := TextCleaner.normalize_text text
  let tokens := splitWs t
  sortStr ((DEFAULT_SKILL_VOCAB.map String.data).filter (fun s => tokens.contains s))

end SkillMatcher

namespace Scoring

/-- Round-half-to-even on a rational, as Python `round` does on the exact
values produced by `compute_compatibility` (quotients of small integers, whose
float rounding agrees with exact rounding at this scale). -/
def roundHalfEven (q : ℚ) : ℤ :=
  let f := ⌊q⌋
  let r := q - f
  if r < 1/2 then f
  else if 1/2 < r then f + 1
  else if Even f then f else f + 1

/-- Python `round(x, 2)` on the exact rational value. -/
def pyRound2 (q : ℚ) : ℚ := (roundHalfEven (q * 100) : ℚ) / 100

/-- A Python set built with `set(s.lower() for s in l)`, modelled as the
duplicate-free list of lowered elements. -/
def lowerSet (l : List Str) : List Str := (l.map toLowerStr).dedup

/-- The `matched = sorted(rs.intersection(js))` value of
`compute_compatibility` (`sortStr` is Python `sorted` under code-point
order). -/
def matchedOf (resume_skills jd_skills : List Str) : List Str :=
  sortStr ((lowerSet resume_skills).filter (fun s => s ∈ lowerSet jd_skills))

/-- The `missing = sorted(js.difference(rs))` value of
`compute_compatibility`. -/
def missingOf (resume_skills jd_skills : List Str) : List Str :=
  sortStr ((lowerSet jd_skills).filter (fun s => s ∉ lowerSet resume_skills))

/-- The `round(10.0 * (len(matched) / max(1, len(js))), 2)` value of
`compute_compatibility`. -/
def scoreOf (resume_skills jd_skills : List Str) : ℚ :=
  pyRound2 ((10 : ℚ) *
    (((matchedOf resume_skills jd_skills).length : ℚ) /
      ((max 1 (lowerSet jd_skills).length : ℕ) : ℚ)))

/-- The function `compute_compatibility` of `app/utils/scoring.py`. -/
def compute_compatibility (resume_skills jd_skills : List Str) :
    ℚ × List Str × List Str :=
  (scoreOf resume_skills jd_skills,
   matchedOf resume_skills jd_skills,
   missingOf resume_skills jd_skills)

end Scoring

/-- The `OnlineProfile` pydantic model of `app/models/resume_schema.py`. -/
structure OnlineProfile where
  label : Str
  url : Str
deriving DecidableEq, Repr

/-- The `Project` pydantic model of `app/models/resume_schema.py`. -/
structure Project where
  name : Str
  technologies : List Str
deriving DecidableEq, Repr

/-- The `Resume` pydantic model of `app/models/resume_schema.py`. -/
structure Resume where
  name : Str
  email : Str
  phone : Str
  online_profiles : List OnlineProfile
  experience_summary : Option Str
  projects : List Project
  skills : List Str
  achievements : Option (List Str)
deriving DecidableEq, Repr

namespace Extractor

/-- The `PROFILE_LABELS` table of `app/services/extractor.py`, in insertion
order. -/
def PROFILE_LABELS : List (String × String) := [
  ("linkedin", "LinkedIn"),
  ("github", "GitHub"),
  ("portfolio", "Portfolio"),
  ("medium", "Medium"),
  ("kaggle", "Kaggle"),
  ("leetcode", "LeetCode"),
  ("codeforces", "Codeforces"),
  ("gitlab", "GitLab"),
  ("bitbucket", "Bitbucket")]

/-- The function `label_url` of `app/services/extractor.py`: first table key
contained in the lowercased URL wins, default label `"Website"`. -/
def label_url (url : Str) : Str :=
  match PROFILE_LABELS.find? (fun p => containsSub p.1.data (toLowerStr url)) with
  | some p => p.2.data
  | none => "Website".data

end Extractor

namespace Upload

/-- One iteration of the hyperlink-merging loop in `upload_resume`
(`app/routes/upload.py`, lines 32-35): append a new profile for the hyperlink
`(text, url)` when `url` is truthy (nonempty) and no current profile has
exactly that URL. -/
def mergeStep (ps : List OnlineProfile) (link : Str × Str) : List OnlineProfile :=
  if link.2 ≠ [] ∧ ¬ (ps.any (fun p => p.url = link.2)) then
    ps ++ [⟨Extractor.label_url link.2, link.2⟩]
  else ps

/-- The hyperlink-merging loop of `upload_resume`: fold `mergeStep` over the
supplied hyperlinks, starting from the extracted profiles. -/
def merge_hyperlinks (ps : List OnlineProfile) (links : List (Str × Str)) :
    List OnlineProfile :=
  links.foldl mergeStep ps

end Upload

namespace Extractor

/-- The `SECTION_KEYWORDS` table of `app/services/extractor.py`, in insertion
order. -/
def SECTION_KEYWORDS : List (String × List String) := [
  ("contact", ["contact", "phone", "email", "linkedin", "github", "address", "location"]),
  ("summary", ["summary", "objective", "profile", "about", "professional summary", "executive summary"]),
  ("education", ["education", "degree", "university", "college", "b.tech", "btech", "bachelor", "master", "m.tech", "mtech", "certification", "course", "gpa", "cgpa"]),
  ("experience", ["experience", "work", "employment", "professional", "job", "position", "worked as", "worked on"]),
  ("projects", ["projects", "project", "portfolio", "capstone", "case study", "assignment"]),
  ("skills", ["skills", "technical", "technologies", "competencies", "expertise", "proficient", "programming", "tools"]),
  ("achievements", ["achievements", "awards", "recognitions", "publications", "certifications", "honors", "accomplishments"])]

/-- The section names, in table order. -/
def SECTION_KEYS : List String := SECTION_KEYWORDS.map Prod.fst

/-- Keyword list for a section name (`SECTION_KEYWORDS.get(section, [])`). -/
def keywordsOf (sec : String) : List String :=
  match SECTION_KEYWORDS.find? (fun p => p.1 = sec) with
  | some p => p.2
  | none => []

/-- The function `detect_section_start` of `app/services/extractor.py`: a line
is a header for `sec` when it contains a colon or its lowercased stripped
form ends in `s`, and some keyword of the section occurs in that form. -/
def detect_section_start (line : Str) (sec : String) : Bool :=
  let ll := trimStr (toLowerStr line)
  if ¬ (line.contains ':') ∧ ¬ (['s'].isSuffixOf ll) then false
  else (keywordsOf sec).any (fun kw => containsSub kw.data ll)

/-- The inner loop of `split_resume_by_sections`: the first section name (in
table order) whose header test accepts the line. -/
def detectSection (line : Str) : Option String :=
  SECTION_KEYS.find? (fun s => detect_section_start line s)

/-- Assignment `d[k] = v` on a Python dict modelled as an association list
whose keys are fixed up front (every assignment in the program targets an
existing key). -/
def dictSet (d : List (String × Str)) (k : String) (v : Str) : List (String × Str) :=
  d.map (fun p => if p.1 = k then (k, v) else p)

/-- Lookup `d.get(k, default)` on the association-list dict model. -/
def dictGetD (d : List (String × Str)) (k : String) (dflt : Str) : Str :=
  match d.find? (fun p => p.1 = k) with
  | some p => p.2
  | none => dflt

/-- The initial `sections` dict of `split_resume_by_sections`: every section
key and `"other"`, all mapped to the empty string. -/
def initSections : List (String × Str) :=
  SECTION_KEYS.map (fun k => (k, ([] : Str))) ++ [("other", [])]

/-- Python `'\n'.join(content).strip()` used when a section is saved. -/
def joinStrip (content : List Str) : Str := trimStr (intercalateNl content)

/-- The loop of `split_resume_by_sections`: `secs` is the dict built so far,
`cur` the current section name, `content` the lines accumulated for it.  A
detected header saves the current section and restarts the accumulator with
the header line; the last section is saved when the lines run out. -/
def splitLoop (secs : List (String × Str)) (cur : String) (content : List Str) :
    List Str → List (String × Str)
  | [] => dictSet secs cur (joinStrip content)
  | line :: rest =>
    match detectSection line with
    | some s => splitLoop (dictSet secs cur (joinStrip content)) s [line] rest
    | none => splitLoop secs cur (content ++ [line]) rest

/-- The function `split_resume_by_sections` of `app/services/extractor.py`. -/
def split_resume_by_sections (text : Str) : List (String × Str) :=
  splitLoop initSections "contact" [] (splitNl text)

/-- Reference segmentation of the lines: the list of `(label, lines)` blocks
the loop of `split_resume_by_sections` walks through, in document order. -/
def segsLoop (cur : String) (content : List Str) : List Str → List (String × List Str)
  | [] => [(cur, content)]
  | line :: rest =>
    match detectSection line with
    | some s => (cur, content) :: segsLoop s [line] rest
    | none => segsLoop cur (content ++ [line]) rest

/-- Segmentation of a whole text, starting in the implicit `"contact"`
section. -/
def segments (text : Str) : List (String × List Str) :=
  segsLoop "contact" [] (splitNl text)

/-- The nonempty lines of a stored section content. -/
def contentLines (s : Str) : List Str := (splitNl s).filter (· ≠ [])

/-- All nonempty lines stored in the sections dict, in key order. -/
def allContentLines (d : List (String × Str)) : List Str :=
  d.flatMap (fun p => contentLines p.2)

/-- Replay of the dict assignments performed by the loop of
`split_resume_by_sections`: store each segment, in order, under its label. -/
def applySegs (d : List (String × Str)) (sl : List (String × List Str)) :
    List (String × Str) :=
  sl.foldl (fun d p => dictSet d p.1 (joinStrip p.2)) d

end Extractor

namespace Extractor

/-- Leftmost regex search: try the position matcher `f` at each suffix, first
success wins (Python `re.search` position order). -/
def searchAux (f : Str → Option Str) : Str → Option Str
  | [] => f []
  | c :: rest =>
    match f (c :: rest) with
    | some m => some m
    | none => searchAux f rest

/-- Character class `[a-zA-Z0-9_.+-]` of `EMAIL_RE`. -/
def emailC1 (c : Char) : Bool := c.isAlphanum || c = '_' || c = '.' || c = '+' || c = '-'

/-- Character class `[a-zA-Z0-9-]` of `EMAIL_RE`. -/
def emailC2 (c : Char) : Bool := c.isAlphanum || c = '-'

/-- Character class `[a-zA-Z0-9-.]` of `EMAIL_RE`. -/
def emailC3 (c : Char) : Bool := c.isAlphanum || c = '-' || c = '.'

/-- Match of `EMAIL_RE` anchored at the start of `s`.  Each `+`-quantified
class is taken as its maximal run: the following literal (`@`, `.`) is outside
the class, so Python's greedy backtracking can only succeed on the maximal
run, and the final class is greedy. -/
def emailMatchAt (s : Str) : Option Str :=
  let r1 := s.takeWhile emailC1
  if r1 = [] then none
  else
    match s.drop r1.length with
    | '@' :: rest2 =>
      let r2 := rest2.takeWhile emailC2
      if r2 = [] then none
      else
        match rest2.drop r2.length with
        | '.' :: rest3 =>
          let r3 := rest3.takeWhile emailC3
          if r3 = [] then none else some (r1 ++ '@' :: (r2 ++ '.' :: r3))
        | _ => none
    | _ => none

/-- The function `extract_email` of `app/services/extractor.py`:
`EMAIL_RE.search(text)`, empty string when there is no match. -/
def extract_email (text : Str) : Str := (searchAux emailMatchAt text).getD []

/-- Regex `\d`. -/
def digitC (c : Char) : Bool := c.isDigit

/-- Character class `[\s.-]` of `PHONE_RE`. -/
def sepC (c : Char) : Bool := pyIsSpace c || c = '.' || c = '-'

/-- Literal `+` of `PHONE_RE`. -/
def plusC (c : Char) : Bool := c = '+'

/-- Fixed-count repetition of a character class. -/
def repC (p : Char → Bool) (n : Nat) : List (Char → Bool) := List.replicate n p

/-- Expansion of `[\s.-]?` in greedy preference order. -/
def optSep : List (List (Char → Bool)) := [[sepC], []]

/-- Expansion of `(?:\+\d{1,3}[\s.-]?)?` in greedy preference order: group
present first (inner `\d{1,3}` greedy: 3, 2, 1; inner `[\s.-]?` greedy), then
the group absent. -/
def phoneG1 : List (List (Char → Bool)) :=
  ([3, 2, 1].flatMap (fun k => optSep.map (fun j => plusC :: (repC digitC k ++ j)))) ++ [[]]

/-- Expansion of `(?:\d{2,4}[\s.-]?)?` in greedy preference order. -/
def phoneG2 : List (List (Char → Bool)) :=
  ([4, 3, 2].flatMap (fun k => optSep.map (fun j => repC digitC k ++ j))) ++ [[]]

/-- Expansion of `\d{3}[\s.-]?\d{3,4}[\s.-]?\d{3,4}` in greedy preference
order. -/
def phoneTail : List (List (Char → Bool)) :=
  optSep.flatMap (fun s1 =>
    [4, 3].flatMap (fun m =>
      optSep.flatMap (fun s2 =>
        [4, 3].map (fun n =>
          repC digitC 3 ++ s1 ++ repC digitC m ++ s2 ++ repC digitC n))))

/-- Expansion of the first alternative of `PHONE_RE`, in Python's chronological
backtracking order (later choice points vary fastest). -/
def phoneBranchA : List (List (Char → Bool)) :=
  phoneG1.flatMap (fun a => phoneG2.flatMap (fun b => phoneTail.map (fun t => a ++ b ++ t)))

/-- Expansion of the second alternative `\+\d{1,3}\s?\d{6,14}` of `PHONE_RE`
(greedy: `\d{1,3}` tries 3 first, `\s?` with the space first, `\d{6,14}` tries
14 first). -/
def phoneBranchB : List (List (Char → Bool)) :=
  [3, 2, 1].flatMap (fun k =>
    [[pyIsSpace], ([] : List (Char → Bool))].flatMap (fun s =>
      (List.range 9).map (fun d => plusC :: (repC digitC k ++ s ++ repC digitC (14 - d)))))

/-- All alternatives of `PHONE_RE`, in Python preference order.  Every
quantifier of `PHONE_RE` is bounded, so the regex denotes this finite list of
fixed-length character-class sequences. -/
def phoneAlts : List (List (Char → Bool)) := phoneBranchA ++ phoneBranchB

/-- A fixed-length character-class sequence matches a prefix of `s`. -/
def matchFlat : List (Char → Bool) → Str → Bool
  | [], _ => true
  | _ :: _, [] => false
  | p :: ps, c :: rest => p c && matchFlat ps rest

/-- Match of `PHONE_RE` anchored at the start of `s`: the first alternative
(in preference order) that matches wins, and the matched prefix is returned. -/
def phoneMatchAt (s : Str) : Option Str :=
  (phoneAlts.find? (fun alt => matchFlat alt s)).map (fun alt => s.take alt.length)

/-- The function `extract_phone` of `app/services/extractor.py`:
`PHONE_RE.search(text)`, empty string when there is no match. -/
def extract_phone (text : Str) : Str := (searchAux phoneMatchAt text).getD []

/-- Match of `URL_RE` (`https?://[^\s]+`) anchored at the start of `s`:
returns the match and the remaining input.  `https?` is greedy (the `s` branch
is tried first) and `[^\s]+` takes the maximal nonempty run of
non-whitespace. -/
def urlMatchAt (s : Str) : Option (Str × Str) :=
  if "http".data.isPrefixOf s then
    let rest := s.drop 4
    let afterScheme : Option (Str × Str) :=
      match rest with
      | 's' :: r2 =>
        if "://".data.isPrefixOf r2 then some ("https://".data, r2.drop 3)
        else if "://".data.isPrefixOf rest then some ("http://".data, rest.drop 3)
        else none
      | _ =>
        if "://".data.isPrefixOf rest then some ("http://".data, rest.drop 3)
        else none
    match afterScheme with
    | some (pre, r) =>
      let run := r.takeWhile (fun c => ¬ pyIsSpace c)
      if run = [] then none else some (pre ++ run, r.drop run.length)
    | none => none
  else none

/-- The scan of `URL_RE.findall`: non-overlapping leftmost matches, resuming
after each match.  The fuel starts at the text length; every successful match
consumes at least one character, so the fuel never runs out. -/
def urlFindAllAux : Nat → Str → List Str
  | 0, _ => []
  | _, [] => []
  | fuel + 1, c :: rest =>
    match urlMatchAt (c :: rest) with
    | some (m, r) => m :: urlFindAllAux fuel r
    | none => urlFindAllAux fuel rest

/-- Python `URL_RE.findall(text)`. -/
def urlFindAll (s : Str) : List Str := urlFindAllAux s.length s

/-- The function `extract_profiles_from_text` of `app/services/extractor.py`:
one profile per URL found, labelled by `label_url`.  (The `profile_mentions`
findall in the source is computed but never used.) -/
def extract_profiles_from_text (text : Str) : List OnlineProfile :=
  (urlFindAll text).map (fun u => ⟨label_url u, u⟩)

/-- The skip words of the candidate filter in `extract_name_robust`. -/
def nameSkipWords : List String :=
  ["summary", "objective", "about", "phone", "email", "linkedin", "github"]

/-- The candidate filter of `extract_name_robust`, applied to an already
stripped nonempty line.  The ratio test `alpha_count / len(line) > 0.7` is the
exact integer comparison `10 * alpha_count > 7 * len(line)`, which agrees with
Python's float comparison for all line lengths up to 100. -/
def nameCandidate (line : Str) : Bool :=
  ¬ (line.contains '@' || containsSub "http".data line ||
      (line.contains '+' && decide (line.length < 5))) &&
  ¬ (decide (line.length > 100)) &&
  ¬ (pyIsUpper line && line.any Char.isDigit) &&
  ¬ (nameSkipWords.any (fun w => containsSub w.data (toLowerStr line))) &&
  (let n := (splitWs line).length
   decide (1 ≤ n) && decide (n ≤ 5) &&
     (let alpha :=
       (line.filter (fun c => c.isAlpha || pyIsSpace c || c = '-' || c = Char.ofNat 39)).length
      decide (10 * alpha > 7 * line.length)))

/-- The function `extract_name_robust` of `app/services/extractor.py`: filter
the first 15 stripped nonempty lines through `nameCandidate`; when at least two
candidates exist, both of at most 3 words and their concatenation of at most 5
words, return the title-cased concatenation, otherwise the title-cased first
candidate; empty string when there is none. -/
def extract_name_robust (text : Str) : Str :=
  let lines := ((pySplitlines text).map trimStr).filter (· ≠ [])
  let cands := (lines.take 15).filter nameCandidate
  match cands with
  | [] => []
  | first :: rest =>
    match rest with
    | second :: _ =>
      if (splitWs first).length ≤ 3 ∧ (splitWs second).length ≤ 3 then
        let combined := trimStr (first ++ ' ' :: second)
        if (splitWs combined).length ≤ 5 then pyTitle combined else pyTitle first
      else pyTitle first
    | [] => pyTitle first

/-- The per-line body of `extract_projects_from_text`, applied to the stripped
line: the line is a project row when it contains one of the textual hints or
is nonempty, does not start with a digit, is longer than 5 characters and
contains one of the first ten `TECH_WORDS` as a substring.  The project name
is the line with every detected tech word removed (lowercasing at each step,
as the source does), bullets and the `project:` marker removed, cut at the
first parenthesis and stripped. -/
def projectLine (line : Str) : Option Project :=
  let cond :=
    (["project:", "â€¢ "].map String.data).any (fun h => containsSub h (toLowerStr line)) ||
    (match line with
     | [] => false
     | c :: _ =>
       ¬ c.isDigit && decide (line.length > 5) &&
         ((TECH_WORDS.take 10).map String.data).any
           (fun t => containsSub (toLowerStr t) (toLowerStr line)))
  if cond then
    let techs := (TECH_WORDS.map String.data).filter
      (fun t => containsSub (toLowerStr t) (toLowerStr line))
    let n0 := techs.foldl (fun n t => trimStr (replaceAll (toLowerStr t) [] (toLowerStr n))) line
    let n1 := trimStr (replaceAll "project:".data [] (replaceAll "â€¢".data [] n0))
    let n2 := trimStr (takeUntilChar '(' n1)
    if n2 ≠ [] ∧ decide (n2.length > 3) then
      some ⟨n2.take 150, (sortStr techs.dedup).take 10⟩
    else none
  else none

/-- The function `extract_projects_from_text` of `app/services/extractor.py`:
apply `projectLine` to every stripped line and keep the first ten projects. -/
def extract_projects_from_text (text : Str) : List Project :=
  (((splitNl text).map trimStr).filterMap projectLine).take 10

/-- The character set of `line.lstrip('â€¢-0123456789. ')` in
`extract_achievements_from_text`. -/
def achLstripSet : Str := "â€¢-0123456789. ".data

/-- The achievement built from a matched line: left-strip the bullet
characters, strip, keep when nonempty and longer than 10 characters
(truncated to 200). -/
def achievementOf (line : Str) : Option Str :=
  let a := trimStr (line.dropWhile (fun c => c ∈ achLstripSet))
  if a ≠ [] ∧ decide (a.length > 10) then some (a.take 200) else none

/-- The loop of `extract_achievements_from_text`.  When the stripped line
starts with neither bullet marker, the source evaluates `line[0]`, which
raises `IndexError` on an empty line: that failure is the `none` result. -/
def achLoop (acc : List Str) : List Str → Option (List Str)
  | [] => some acc
  | l0 :: rest =>
    let line := trimStr l0
    if "â€¢".data.isPrefixOf line || ['-'].isPrefixOf line then
      match achievementOf line with
      | some a => achLoop (acc ++ [a]) rest
      | none => achLoop acc rest
    else
      match line with
      | [] => none
      | c :: _ =>
        if c.isDigit && (line.take 3).contains '.' then
          match achievementOf line with
          | some a => achLoop (acc ++ [a]) rest
          | none => achLoop acc rest
        else achLoop acc rest

/-- The function `extract_achievements_from_text` of
`app/services/extractor.py`: `none` models the `IndexError` raised on a blank
line; otherwise the first ten collected achievements. -/
def extract_achievements_from_text (text : Str) : Option (List Str) :=
  (achLoop [] (splitNl text)).map (fun l => l.take 10)

/-- The `experience_summary` computation of `extract_resume_info`: the
stripped summary section, or — when it is empty — the second of the stripped
lines longer than 20 characters, truncated to 300, provided there are more
than two of them. -/
def esummaryOf (text : Str) : Str :=
  let summary0 := trimStr (dictGetD (split_resume_by_sections text) "summary" [])
  if summary0 = [] then
    let lines := (splitNl text).filterMap (fun l =>
      let ls := trimStr l
      if ls ≠ [] ∧ decide (ls.length > 20) then some ls else none)
    if decide (2 < lines.length) then (getLineD lines 1).take 300 else summary0
  else summary0

/-- The body of `extract_resume_info` of `app/services/extractor.py` up to and
including the construction of the `Resume` record (everything before the
`save_extracted_data` call).  The only failure point is the achievements
extraction, whose `IndexError` escapes unhandled. -/
def extract_resume_core (text : Str) : Except String Resume :=
  match extract_achievements_from_text
      (dictGetD (split_resume_by_sections text) "achievements" text) with
  | none => Except.error "IndexError"
  | some ach =>
    Except.ok {
      name := (let n := extract_name_robust text
               if n = [] then "NOT EXTRACTED".data else n),
      email := extract_email text,
      phone := extract_phone text,
      online_profiles := extract_profiles_from_text text,
      experience_summary := (let es := esummaryOf text
                             if es = [] then none else some es),
      projects := extract_projects_from_text
        (dictGetD (split_resume_by_sections text) "projects" text),
      skills := extract_skills_from_text text,
      achievements := (if ach = [] then none else some ach) }

/-- The function `extract_resume_info` of `app/services/extractor.py`: build
the record, then run `save_extracted_data` and return the record.  The save
call performs file-system output, whose outcome is passed in as
`saveOutcome`; the source wraps it in no handler, so its failure escapes. -/
def extract_resume_info_run (text : Str) (saveOutcome : Except String Unit) :
    Except String Resume :=
  match extract_resume_core text with
  | Except.error e => Except.error e
  | Except.ok r =>
    match saveOutcome with
    | Except.ok _ => Except.ok r
    | Except.error e => Except.error e

end Extractor

/-! ### Membership lemmas for the executable sort and skill extraction -/

theorem mem_insertLe {y x : Str} {l : List Str} : y ∈ insertLe x l ↔ y = x ∨ y ∈ l := by
  induction l with
  | nil => simp [insertLe]
  | cons z zs ih =>
    simp only [insertLe]
    split
    · simp [List.mem_cons]
    · simp only [List.mem_cons, ih]
      tauto

theorem mem_sortStr {y : Str} {l : List Str} : y ∈ sortStr l ↔ y ∈ l := by
  induction l with
  | nil => simp [sortStr]
  | cons x xs ih => simp [sortStr, mem_insertLe, ih]

namespace Extractor

theorem mem_extract_skills {t text : Str} :
    t ∈ extract_skills_from_text text ↔
      t ∈ TECH_WORDS.map String.data ∧ regexWordSearch t (toLowerStr text) = true := by
  unfold extract_skills_from_text
  simp [mem_sortStr, List.mem_dedup, List.mem_filter]

theorem regexWordSearch_spec {t s : Str} (h : regexWordSearch t s = true) :
    ∃ i, i + t.length ≤ s.length ∧ occursAt t s i = true ∧
      boundaryAt s i = true ∧ boundaryAt s (i + t.length) = true := by
  unfold regexWordSearch at h
  rw [List.any_eq_true] at h
  obtain ⟨i, hi, hcond⟩ := h
  rw [Bool.and_eq_true, Bool.and_eq_true] at hcond
  obtain ⟨⟨hocc, hb1⟩, hb2⟩ := hcond
  refine ⟨i, ?_, hocc, hb1, hb2⟩
  have hp : t <+: s.drop i := List.isPrefixOf_iff_prefix.1 hocc
  have h2 := hp.length_le
  rw [List.length_drop] at h2
  have hi2 : i < s.length + 1 := List.mem_range.1 hi
  omega

theorem occursAt_getElem {t s : Str} {i j : Nat} (h : occursAt t s i = true)
    (hj : j < t.length) : s[i + j]? = t[j]? := by
  unfold occursAt at h
  obtain ⟨r, hr⟩ := List.isPrefixOf_iff_prefix.1 h
  have h2 : (s.drop i)[j]? = t[j]? := by
    rw [← hr, List.getElem?_append_left hj]
  rw [← List.getElem?_drop]
  exact h2

/-- A detected occurrence whose last character is not a word character forces
the next character to be a word character (that is how the trailing `\b` can
hold after a non-word character). -/
theorem regexSearch_last_nonword {t s : Str} {c : Char} (hc : t.getLast? = some c)
    (hwc : isWordChar c = false) (h : regexWordSearch t s = true) :
    ∃ i, i < s.length ∧ occursAt t s i = true ∧ isWordAt s (i + t.length) = true := by
  obtain ⟨i, hlen, hocc, _, hb2⟩ := regexWordSearch_spec h
  have ht0 : 0 < t.length := by
    cases t with
    | nil => simp at hc
    | cons a l => simp
  have hj : t.length - 1 < t.length := by omega
  have hW : isWordAt s (i + t.length - 1) = false := by
    have hg := occursAt_getElem hocc hj
    rw [← List.getLast?_eq_getElem? t, hc] at hg
    unfold isWordAt
    rw [show i + t.length - 1 = i + (t.length - 1) by omega, hg]
    exact hwc
  have h0lt : 0 < i + t.length := by omega
  unfold boundaryAt at hb2
  rw [hW, decide_eq_true h0lt, Bool.true_and] at hb2
  refine ⟨i, by omega, hocc, ?_⟩
  revert hb2
  cases isWordAt s (i + t.length) <;> simp

end Extractor

/-- C6: skill extraction is word-boundary safe.  On `"javascript developer"`
exactly `"javascript"` is detected (`"java"` is not); and in general, any
detected vocabulary term whose first and last characters are word characters
has an occurrence in the lowercased text that is flanked on the left and on
the right by a position that is absent or not a word character — it is never
matched as a partial substring of a longer word. -/
theorem C6_skill_extraction_boundary_safe :
    Extractor.extract_skills_from_text "javascript developer".data = ["javascript".data] ∧
    ∀ (t text : Str) (c0 cl : Char),
      t ∈ Extractor.extract_skills_from_text text →
      t.head? = some c0 → Extractor.isWordChar c0 = true →
      t.getLast? = some cl → Extractor.isWordChar cl = true →
      ∃ i, Extractor.occursAt t (toLowerStr text) i = true ∧
        (decide (0 < i) && Extractor.isWordAt (toLowerStr text) (i - 1)) = false ∧
        Extractor.isWordAt (toLowerStr text) (i + t.length) = false := by
  constructor
  · decide
  · intro t text c0 cl hmem hh hwc hl hwl
    have hsearch := (Extractor.mem_extract_skills.1 hmem).2
    obtain ⟨i, hlen, hocc, hb1, hb2⟩ := Extractor.regexWordSearch_spec hsearch
    have ht0 : 0 < t.length := by
      cases t with
      | nil => simp at hh
      | cons a l => simp
    have hW0 : Extractor.isWordAt (toLowerStr text) i = true := by
      have hg := Extractor.occursAt_getElem hocc ht0
      rw [Nat.add_zero] at hg
      rw [← List.head?_eq_getElem? t, hh] at hg
      unfold Extractor.isWordAt
      rw [hg]
      exact hwc
    have hleft : (decide (0 < i) && Extractor.isWordAt (toLowerStr text) (i - 1)) = false := by
      unfold Extractor.boundaryAt at hb1
      rw [hW0] at hb1
      revert hb1
      cases (decide (0 < i) && Extractor.isWordAt (toLowerStr text) (i - 1)) <;> simp
    have hWlast : Extractor.isWordAt (toLowerStr text) (i + t.length - 1) = true := by
      have hj : t.length - 1 < t.length := by omega
      have hg := Extractor.occursAt_getElem hocc hj
      rw [← List.getLast?_eq_getElem? t, hl] at hg
      unfold Extractor.isWordAt
      rw [show i + t.length - 1 = i + (t.length - 1) by omega, hg]
      exact hwl
    have h0lt : 0 < i + t.length := by omega
    unfold Extractor.boundaryAt at hb2
    rw [hWlast, decide_eq_true h0lt, Bool.true_and] at hb2
    refine ⟨i, hocc, hleft, ?_⟩
    revert hb2
    cases Extractor.isWordAt (toLowerStr text) (i + t.length) <;> simp

/-- Witness for C6: instantiating the boundary-safety statement at the term
`"python"` detected in `"python rocks"`. -/
theorem C6_skill_extraction_boundary_safe_witness :
    ∃ i, Extractor.occursAt "python".data (toLowerStr "python rocks".data) i = true ∧
      (decide (0 < i) && Extractor.isWordAt (toLowerStr "python rocks".data) (i - 1)) = false ∧
      Extractor.isWordAt (toLowerStr "python rocks".data) (i + "python".data.length) = false :=
  C6_skill_extraction_boundary_safe.2 "python".data "python rocks".data 'p' 'n'
    (by decide) (by decide) (by decide) (by decide) (by decide)

/-- C10: the terms `"c++"` and `"c#"` cannot be detected in any text where
each of their occurrences is not followed by a word character (in particular
at end of text or before whitespace/punctuation): the trailing `\b` cannot
match after the non-word characters `+` and `#`. -/
theorem C10_cpp_csharp_not_detected :
    ∀ text : Str,
      (∀ i, i < (toLowerStr text).length →
        Extractor.occursAt "c++".data (toLowerStr text) i = true →
        Extractor.isWordAt (toLowerStr text) (i + 3) = false) →
      (∀ i, i < (toLowerStr text).length →
        Extractor.occursAt "c#".data (toLowerStr text) i = true →
        Extractor.isWordAt (toLowerStr text) (i + 2) = false) →
      "c++".data ∉ Extractor.extract_skills_from_text text ∧
      "c#".data ∉ Extractor.extract_skills_from_text text := by
  intro text h1 h2
  constructor
  · intro hmem
    have hsearch := (Extractor.mem_extract_skills.1 hmem).2
    obtain ⟨i, hilt, hocc, hW⟩ :=
      Extractor.regexSearch_last_nonword (c := '+') (by decide) (by decide) hsearch
    have hfalse := h1 i hilt hocc
    rw [show ("c++".data).length = 3 from rfl] at hW
    rw [hfalse] at hW
    exact Bool.false_ne_true hW
  · intro hmem
    have hsearch := (Extractor.mem_extract_skills.1 hmem).2
    obtain ⟨i, hilt, hocc, hW⟩ :=
      Extractor.regexSearch_last_nonword (c := '#') (by decide) (by decide) hsearch
    have hfalse := h2 i hilt hocc
    rw [show ("c#".data).length = 2 from rfl] at hW
    rw [hfalse] at hW
    exact Bool.false_ne_true hW

/-- Witness for C10: on the text `"c++ c#"` (both terms followed by a space or
the end of the text) neither term is extracted. -/
theorem C10_cpp_csharp_not_detected_witness :
    "c++".data ∉ Extractor.extract_skills_from_text "c++ c#".data ∧
    "c#".data ∉ Extractor.extract_skills_from_text "c++ c#".data :=
  C10_cpp_csharp_not_detected "c++ c#".data (by decide) (by decide)

/-- Counterexample for C5: the vocabularies differ.  The term `"javascript"`
is detectable by the resume skill extractor but not in a job description,
because `analyze_resume_vs_jd` derives JD skills through the 18-term
`DEFAULT_SKILL_VOCAB` of `skill_matcher.py`, not through `TECH_WORDS`. -/
theorem C5_vocabularies_differ :
    "javascript".data ∈ Extractor.extract_skills_from_text "javascript".data ∧
    "javascript".data ∉ SkillMatcher.extract_skills_from_text "javascript".data ∧
    SkillMatcher.DEFAULT_SKILL_VOCAB ≠ Extractor.TECH_WORDS := by
  refine ⟨by decide, by decide, by decide⟩

/-- C5 as amended: the job-description vocabulary is only a (strict) subset of
the resume vocabulary — every term of `DEFAULT_SKILL_VOCAB` occurs in
`TECH_WORDS`, but not conversely. -/
theorem C5_jd_vocab_subset_of_tech_words :
    ∀ s : String, s ∈ SkillMatcher.DEFAULT_SKILL_VOCAB → s ∈ Extractor.TECH_WORDS := by
  decide

/-- Witness for C5 as amended, at the term `"python"`. -/
theorem C5_jd_vocab_subset_of_tech_words_witness : "python" ∈ Extractor.TECH_WORDS :=
  C5_jd_vocab_subset_of_tech_words "python" (by decide)

/-- Counterexample for C7: on the documented input the extractor does not
return `"John Smith"`. -/
theorem C7_name_example_not_john_smith :
    Extractor.extract_name_robust "John Smith\nSoftware Engineer\njohn@x.com".data ≠
      "John Smith".data := by
  decide

/-- C7 as amended: on lines `["John Smith", "Software Engineer", "john@x.com"]`
the first two candidate lines (each of at most 3 words, 4 words combined) are
concatenated and title-cased, so name extraction returns
`"John Smith Software Engineer"`. -/
theorem C7_name_example_combined :
    Extractor.extract_name_robust "John Smith\nSoftware Engineer\njohn@x.com".data =
      "John Smith Software Engineer".data := by
  decide

/-- C1 (failing evaluation): on the empty input — whose achievements section
content is the empty string, as for every input without a detected
achievements heading — `extract_resume_info` does not return a record: the
loop of `extract_achievements_from_text` evaluates `line[0]` on the empty
stripped line and raises `IndexError`. -/
theorem C1_extraction_raises_on_empty_input :
    Extractor.extract_resume_info_run [] (Except.ok ()) = Except.error "IndexError" := by
  rfl

/-- Counterexample for C4: on a well-formed input, a failure of the diagnostic
persistence step is propagated to the caller of `extract_resume_info` (the
call to `save_extracted_data` is wrapped in no handler), contradicting the
claim that such failures are always caught. -/
theorem C4_save_failure_reaches_caller :
    Extractor.extract_resume_info_run "achievements:\n- won the grand prize".data
      (Except.error "disk full") = Except.error "disk full" := by
  rfl

/-- C4 as amended: whenever extraction itself succeeds, a failure of the
persistence step is propagated unchanged to the caller (the record that was
already built is not returned); the outcome of the save step never alters the
record itself, which is fixed by the text alone. -/
theorem C4_save_failure_propagates (text : Str) (e : String)
    (h : (Extractor.extract_resume_info_run text (Except.ok ())).isOk = true) :
    Extractor.extract_resume_info_run text (Except.error e) = Except.error e := by
  unfold Extractor.extract_resume_info_run at h ⊢
  cases hcore : Extractor.extract_resume_core text with
  | error e2 => rw [hcore] at h; simp [Except.isOk, Except.toBool] at h
  | ok r2 => rfl

/-- Witness for C4 as amended, on a concrete well-formed resume text. -/
theorem C4_save_failure_propagates_witness :
    Extractor.extract_resume_info_run "achievements:\n- won the grand prize".data
      (Except.error "io") = Except.error "io" :=
  C4_save_failure_propagates "achievements:\n- won the grand prize".data "io" (by rfl)

/-- Counterexample for C8: a text whose projects section is empty while the
whole text contains a recognizable project line.  `extract_resume_info`
extracts no project (it runs on the empty section content), although project
extraction over the whole text finds one — the claimed whole-text fallback
does not happen, because the sections dict always contains the `"projects"`
key and `dict.get(key, text)` therefore never returns its default. -/
theorem C8_projects_fallback_missing :
    Extractor.dictGetD
      (Extractor.split_resume_by_sections
        "uses rust daily\nachievements:\n- won the grand prize".data)
      "projects" "uses rust daily\nachievements:\n- won the grand prize".data = [] ∧
    Except.map Resume.projects
      (Extractor.extract_resume_info_run
        "uses rust daily\nachievements:\n- won the grand prize".data
        (Except.ok ())) = Except.ok [] ∧
    Extractor.extract_projects_from_text
      "uses rust daily\nachievements:\n- won the grand prize".data ≠ [] := by
  refine ⟨by decide, by rfl, by decide⟩

/-- C8 as amended: the sections dict always contains the section keys, so the
whole-text fallback written as `sections.get(key, text)` never takes effect.
When the projects section content is empty, the returned record contains no
projects at all; and when the achievements section content is empty, the
extraction does not return — it raises `IndexError` instead of falling back
to the whole text. -/
theorem C8_section_fallback_never_used (text : Str) :
    (Extractor.dictGetD (Extractor.split_resume_by_sections text) "achievements" text = [] →
      ∀ o, Extractor.extract_resume_info_run text o = Except.error "IndexError") ∧
    (∀ r, Extractor.extract_resume_info_run text (Except.ok ()) = Except.ok r →
      Extractor.dictGetD (Extractor.split_resume_by_sections text) "projects" text = [] →
      r.projects = []) := by
  constructor
  · intro hach o
    unfold Extractor.extract_resume_info_run Extractor.extract_resume_core
    rw [hach]
    rfl
  · intro r h hproj
    unfold Extractor.extract_resume_info_run at h
    cases hcore : Extractor.extract_resume_core text with
    | error e => rw [hcore] at h; simp at h
    | ok r2 =>
      rw [hcore] at h
      simp at h
      subst h
      unfold Extractor.extract_resume_core at hcore
      cases hach : Extractor.extract_achievements_from_text
          (Extractor.dictGetD (Extractor.split_resume_by_sections text)
            "achievements" text) with
      | none => rw [hach] at hcore; simp at hcore
      | some ach =>
        rw [hach] at hcore
        injection hcore with h2
        rw [← h2]
        simp only []
        rw [hproj]
        rfl

/-- Witness for C8 as amended: the input `"x"` (empty achievements section)
makes extraction raise, and on the counterexample text (empty projects
section) the record carries no projects. -/
theorem C8_section_fallback_never_used_witness :
    Extractor.extract_resume_info_run "x".data (Except.ok ()) =
      Except.error "IndexError" ∧
    Except.map Resume.projects
      (Extractor.extract_resume_info_run
        "uses rust daily\nachievements:\n- won the grand prize".data
        (Except.ok ())) = Except.ok [] := by
  constructor
  · exact (C8_section_fallback_never_used "x".data).1 (by decide) (Except.ok ())
  · cases hrun : Extractor.extract_resume_info_run
        "uses rust daily\nachievements:\n- won the grand prize".data (Except.ok ()) with
    | error e =>
      have hok : (Extractor.extract_resume_info_run
          "uses rust daily\nachievements:\n- won the grand prize".data
          (Except.ok ())).isOk = true := by rfl
      rw [hrun] at hok
      simp [Except.isOk, Except.toBool] at hok
    | ok r =>
      rw [Except.map]
      exact congrArg Except.ok
        ((C8_section_fallback_never_used
          "uses rust daily\nachievements:\n- won the grand prize".data).2 r hrun (by decide))

/-! ### Order properties of the executable string comparison and sort -/

theorem lexLt_irrefl : ∀ a : Str, lexLt a a = false := by
  intro a
  induction a with
  | nil => rfl
  | cons c cs ih => simp [lexLt, ih]

theorem lexLt_trans : ∀ {a b c : Str}, lexLt a b = true → lexLt b c = true →
    lexLt a c = true := by
  intro a
  induction a with
  | nil =>
    intro b c hab hbc
    cases b with
    | nil => simp [lexLt] at hab
    | cons y ys =>
      cases c with
      | nil => simp [lexLt] at hbc
      | cons z zs => simp [lexLt]
  | cons x xs ih =>
    intro b c hab hbc
    cases b with
    | nil => simp [lexLt] at hab
    | cons y ys =>
      cases c with
      | nil => simp [lexLt] at hbc
      | cons z zs =>
        simp only [lexLt] at hab hbc ⊢
        by_cases hxy : x = y
        · subst hxy
          simp only [if_pos rfl] at hab
          by_cases hyz : x = z
          · subst hyz
            simp only [if_pos rfl] at hbc ⊢
            exact ih hab hbc
          · simp only [if_neg hyz] at hbc ⊢
            exact hbc
        · simp only [if_neg hxy] at hab
          have hxy2 : x < y := of_decide_eq_true hab
          by_cases hyz : y = z
          · subst hyz
            simp only [if_neg hxy]
            exact decide_eq_true hxy2
          · simp only [if_neg hyz] at hbc
            have hyz2 : y < z := of_decide_eq_true hbc
            have hxz2 : x < z := lt_trans hxy2 hyz2
            have hxz : x ≠ z := ne_of_lt hxz2
            simp only [if_neg hxz]
            exact decide_eq_true hxz2

theorem lexLt_tri : ∀ a b : Str, lexLt a b = true ∨ lexLt b a = true ∨ a = b := by
  intro a
  induction a with
  | nil =>
    intro b
    cases b with
    | nil => right; right; rfl
    | cons y ys => left; rfl
  | cons x xs ih =>
    intro b
    cases b with
    | nil => right; left; rfl
    | cons y ys =>
      by_cases hxy : x = y
      · subst hxy
        rcases ih ys with h | h | h
        · left; simp [lexLt, h]
        · right; left; simp [lexLt, h]
        · right; right; rw [h]
      · rcases lt_trichotomy x y with h | h | h
        · left; simp [lexLt, if_neg hxy, h]
        · exact absurd h hxy
        · right; left
          have hyx : y ≠ x := fun he => hxy he.symm
          simp [lexLt, if_neg hyx, h]

theorem lexLt_asymm : ∀ {a b : Str}, lexLt a b = true → lexLt b a = false := by
  intro a b h
  by_contra h2
  rw [Bool.not_eq_false] at h2
  have h3 := lexLt_trans h h2
  rw [lexLt_irrefl] at h3
  exact Bool.false_ne_true h3

theorem lexLe_total : ∀ a b : Str, lexLe a b = true ∨ lexLe b a = true := by
  intro a b
  unfold lexLe
  rcases lexLt_tri a b with h | h | h
  · left
    rw [lexLt_asymm h]
    rfl
  · right
    rw [lexLt_asymm h]
    rfl
  · subst h
    left
    rw [lexLt_irrefl]
    rfl

theorem lexLe_trans : ∀ {a b c : Str}, lexLe a b = true → lexLe b c = true →
    lexLe a c = true := by
  intro a b c hab hbc
  simp only [lexLe, Bool.not_eq_true'] at hab hbc ⊢
  by_contra h
  rw [Bool.not_eq_false] at h
  rcases lexLt_tri c b with h1 | h1 | h1
  · exact absurd hbc (by simp [h1])
  · have h2 := lexLt_trans h1 h
    exact absurd hab (by simp [h2])
  · subst h1
    exact absurd hab (by simp [h])

theorem lexLe_of_not_lexLe {x y : Str} (h : lexLe x y = false) : lexLe y x = true := by
  unfold lexLe at h ⊢
  rw [Bool.not_eq_false'] at h
  rw [Bool.not_eq_true']
  exact lexLt_asymm h

theorem sorted_insertLe {x : Str} {l : List Str}
    (h : List.Sorted (fun a b => lexLe a b = true) l) :
    List.Sorted (fun a b => lexLe a b = true) (insertLe x l) := by
  induction l with
  | nil => simp [insertLe]
  | cons y ys ih =>
    rw [List.sorted_cons] at h
    obtain ⟨hy, hys⟩ := h
    simp only [insertLe]
    split
    case isTrue hxy =>
      rw [List.sorted_cons]
      refine ⟨?_, by rw [List.sorted_cons]; exact ⟨hy, hys⟩⟩
      intro b hb
      rcases List.mem_cons.1 hb with rfl | hb2
      · exact hxy
      · exact lexLe_trans hxy (hy b hb2)
    case isFalse hxy =>
      rw [List.sorted_cons]
      refine ⟨?_, ih hys⟩
      intro b hb
      rcases mem_insertLe.1 hb with rfl | hb2
      · exact lexLe_of_not_lexLe (Bool.not_eq_true _ ▸ hxy)
      · exact hy b hb2

theorem sortStr_sorted (l : List Str) :
    List.Sorted (fun a b => lexLe a b = true) (sortStr l) := by
  induction l with
  | nil => simp [sortStr]
  | cons x xs ih => exact sorted_insertLe ih

theorem insertLe_perm (x : Str) (l : List Str) : List.Perm (insertLe x l) (x :: l) := by
  induction l with
  | nil => rfl
  | cons y ys ih =>
    simp only [insertLe]
    split
    · rfl
    · exact (List.Perm.cons y ih).trans (List.Perm.swap x y ys)

theorem sortStr_perm (l : List Str) : List.Perm (sortStr l) l := by
  induction l with
  | nil => rfl
  | cons x xs ih => exact (insertLe_perm x (sortStr xs)).trans (List.Perm.cons x ih)

theorem nodup_subset_length_le {l₁ l₂ : List Str} (h₁ : l₁.Nodup) (h : l₁ ⊆ l₂) :
    l₁.length ≤ l₂.length := by
  have h2 : l₁.toFinset ⊆ l₂.toFinset := by
    intro x hx
    simp only [List.mem_toFinset] at hx ⊢
    exact h hx
  have h3 := Finset.card_le_card h2
  rw [List.toFinset_card_of_nodup h₁] at h3
  exact h3.trans (List.toFinset_card_le l₂)

/-! ### Properties of the compatibility scoring -/

namespace Scoring

theorem roundHalfEven_nonneg {q : ℚ} (h : 0 ≤ q) : 0 ≤ roundHalfEven q := by
  have hf : (0 : ℤ) ≤ ⌊q⌋ := Int.floor_nonneg.2 h
  simp only [roundHalfEven]
  split_ifs <;> omega

theorem roundHalfEven_le {q : ℚ} {n : ℤ} (h : q ≤ n) : roundHalfEven q ≤ n := by
  have hf : ⌊q⌋ ≤ n := by
    have h2 := Int.floor_le_floor h
    rwa [Int.floor_intCast] at h2
  simp only [roundHalfEven]
  split_ifs with h1 h2 h3
  · exact hf
  · rcases lt_or_eq_of_le hf with hlt | heq
    · omega
    · exfalso
      rw [heq] at h2
      have h4 : (n : ℚ) + 1 / 2 < q := by linarith
      have h5 : q ≤ (n : ℚ) := h
      linarith
  · exact hf
  · rcases lt_or_eq_of_le hf with hlt | heq
    · omega
    · exfalso
      rw [heq] at h1
      have h4 : (n : ℚ) + 1 / 2 ≤ q := by linarith [not_lt.1 h1]
      have h5 : q ≤ (n : ℚ) := h
      linarith

theorem pyRound2_nonneg {q : ℚ} (h : 0 ≤ q) : 0 ≤ pyRound2 q := by
  unfold pyRound2
  apply div_nonneg _ (by norm_num)
  have h2 := roundHalfEven_nonneg (q := q * 100) (by positivity)
  exact_mod_cast h2

theorem pyRound2_le_ten {q : ℚ} (h : q ≤ 10) : pyRound2 q ≤ 10 := by
  unfold pyRound2
  rw [div_le_iff₀ (by norm_num : (0 : ℚ) < 100)]
  have h1 : q * 100 ≤ ((1000 : ℤ) : ℚ) := by push_cast; linarith
  have h2 := roundHalfEven_le h1
  have h3 : ((roundHalfEven (q * 100)) : ℚ) ≤ ((1000 : ℤ) : ℚ) := by exact_mod_cast h2
  push_cast at h3 ⊢
  linarith

theorem mem_matchedOf {s : Str} {R J : List Str} :
    s ∈ matchedOf R J ↔ (s ∈ R.map toLowerStr ∧ s ∈ J.map toLowerStr) := by
  unfold matchedOf lowerSet
  rw [(sortStr_perm _).mem_iff]
  simp [List.mem_filter, List.mem_dedup]

theorem mem_missingOf {s : Str} {R J : List Str} :
    s ∈ missingOf R J ↔ (s ∈ J.map toLowerStr ∧ s ∉ R.map toLowerStr) := by
  unfold missingOf lowerSet
  rw [(sortStr_perm _).mem_iff]
  simp [List.mem_filter, List.mem_dedup]

theorem matchedOf_length_le (R J : List Str) :
    (matchedOf R J).length ≤ max 1 (lowerSet J).length := by
  unfold matchedOf
  rw [(sortStr_perm _).length_eq]
  refine le_trans (nodup_subset_length_le ((List.nodup_dedup _).filter _) ?_)
    (le_max_right _ _)
  intro x hx
  have h2 := List.mem_filter.1 hx
  exact of_decide_eq_true h2.2

theorem scoreOf_nonneg (R J : List Str) : 0 ≤ scoreOf R J := by
  unfold scoreOf
  apply pyRound2_nonneg
  positivity

theorem scoreOf_le_ten (R J : List Str) : scoreOf R J ≤ 10 := by
  unfold scoreOf
  apply pyRound2_le_ten
  have hd : (0 : ℚ) < ((max 1 (lowerSet J).length : ℕ) : ℚ) := by
    have h1 : (0 : ℕ) < max 1 (lowerSet J).length :=
      lt_of_lt_of_le Nat.zero_lt_one (le_max_left _ _)
    exact_mod_cast h1
  have hm2 : ((matchedOf R J).length : ℚ) ≤ ((max 1 (lowerSet J).length : ℕ) : ℚ) := by
    exact_mod_cast matchedOf_length_le R J
  have hr : ((matchedOf R J).length : ℚ) / ((max 1 (lowerSet J).length : ℕ) : ℚ) ≤ 1 := by
    rw [div_le_one hd]
    exact hm2
  have h10 := mul_le_mul_of_nonneg_left hr (by norm_num : (0 : ℚ) ≤ 10)
  linarith

theorem scoreOf_empty (R : List Str) : scoreOf R [] = 0 := by
  have hm : matchedOf R [] = [] := by
    unfold matchedOf lowerSet
    have h1 : (((([] : List Str)).map toLowerStr).dedup) = [] := rfl
    rw [h1]
    have h2 : ((R.map toLowerStr).dedup).filter (fun s => decide (s ∈ ([] : List Str))) = [] := by
      simp
    rw [h2]
    rfl
  unfold scoreOf
  rw [hm]
  norm_num
  simp [pyRound2, roundHalfEven]

end Scoring

/-- C2: the contract of `compute_compatibility`.  The returned triple is
`(score, matched, missing)`; `matched` is the sorted case-insensitive
intersection of the two skill lists and `missing` the sorted lowercased
job-description skills absent from the resume; the two are disjoint; the
score is `10·|matched| / max(1, |lowercased JD skill set|)` rounded to two
decimal places, lies in `[0, 10]`, and is `0` for an empty job-description
list. -/
theorem C2_compute_compatibility_contract (R J : List Str) :
    Scoring.compute_compatibility R J =
      (Scoring.scoreOf R J, Scoring.matchedOf R J, Scoring.missingOf R J) ∧
    (∀ s, s ∈ Scoring.matchedOf R J ↔
      (s ∈ R.map toLowerStr ∧ s ∈ J.map toLowerStr)) ∧
    List.Sorted (fun a b => lexLe a b = true) (Scoring.matchedOf R J) ∧
    (∀ s, s ∈ Scoring.missingOf R J ↔
      (s ∈ J.map toLowerStr ∧ s ∉ R.map toLowerStr)) ∧
    List.Sorted (fun a b => lexLe a b = true) (Scoring.missingOf R J) ∧
    (∀ s, ¬ (s ∈ Scoring.matchedOf R J ∧ s ∈ Scoring.missingOf R J)) ∧
    Scoring.scoreOf R J = Scoring.pyRound2 ((10 : ℚ) *
      (((Scoring.matchedOf R J).length : ℚ) /
        ((max 1 (Scoring.lowerSet J).length : ℕ) : ℚ))) ∧
    0 ≤ Scoring.scoreOf R J ∧ Scoring.scoreOf R J ≤ 10 ∧
    (J = [] → Scoring.scoreOf R J = 0) := by
  refine ⟨rfl, fun s => Scoring.mem_matchedOf, sortStr_sorted _,
    fun s => Scoring.mem_missingOf, sortStr_sorted _, ?_, rfl,
    Scoring.scoreOf_nonneg R J, Scoring.scoreOf_le_ten R J, ?_⟩
  · intro s hs
    have h1 := Scoring.mem_matchedOf.1 hs.1
    have h2 := Scoring.mem_missingOf.1 hs.2
    exact h2.2 h1.1
  · intro hJ
    subst hJ
    exact Scoring.scoreOf_empty R

/-- Witness for C2, at resume skills `["Python", "SQL"]` and job-description
skills `["python", "excel"]`. -/
theorem C2_compute_compatibility_contract_witness :
    "python".data ∈ Scoring.matchedOf ["Python".data, "SQL".data]
      ["python".data, "excel".data] ∧
    "excel".data ∈ Scoring.missingOf ["Python".data, "SQL".data]
      ["python".data, "excel".data] ∧
    0 ≤ Scoring.scoreOf ["Python".data, "SQL".data] ["python".data, "excel".data] ∧
    Scoring.scoreOf ["Python".data, "SQL".data] ["python".data, "excel".data] ≤ 10 := by
  have h := C2_compute_compatibility_contract ["Python".data, "SQL".data]
    ["python".data, "excel".data]
  obtain ⟨-, hmat, -, hmiss, -, -, -, hnn, hle, -⟩ := h
  exact ⟨(hmat "python".data).2 ⟨by decide, by decide⟩,
    (hmiss "excel".data).2 ⟨by decide, by decide⟩, hnn, hle⟩

/-! ### Properties of the hyperlink merge in the upload route -/

namespace Upload

theorem mergeStep_urls_mem {ps : List OnlineProfile} {l : Str × Str} {u : Str} :
    u ∈ (mergeStep ps l).map OnlineProfile.url ↔
      (u ∈ ps.map OnlineProfile.url ∨
        (u = l.2 ∧ l.2 ≠ [] ∧ l.2 ∉ ps.map OnlineProfile.url)) := by
  unfold mergeStep
  split
  case isTrue h =>
    obtain ⟨hne, hnany⟩ := h
    have hnotin : l.2 ∉ ps.map OnlineProfile.url := by
      intro hmem
      apply hnany
      rw [List.any_eq_true]
      obtain ⟨p, hp, hpu⟩ := List.mem_map.1 hmem
      exact ⟨p, hp, by simp [hpu]⟩
    rw [List.map_append, List.mem_append]
    simp only [List.map_cons, List.map_nil, List.mem_singleton]
    constructor
    · rintro (h1 | h1)
      · exact Or.inl h1
      · exact Or.inr ⟨h1, hne, hnotin⟩
    · rintro (h1 | ⟨h1, -, -⟩)
      · exact Or.inl h1
      · exact Or.inr h1
  case isFalse h =>
    constructor
    · exact Or.inl
    · rintro (h1 | ⟨rfl, hne, hnotin⟩)
      · exact h1
      · exfalso
        apply h
        refine ⟨hne, ?_⟩
        intro hany
        rw [List.any_eq_true] at hany
        obtain ⟨p, hp, hpu⟩ := hany
        exact hnotin (List.mem_map.2 ⟨p, hp, of_decide_eq_true hpu⟩)

theorem merge_urls_mem : ∀ (links : List (Str × Str)) (ps : List OnlineProfile) (u : Str),
    u ∈ (merge_hyperlinks ps links).map OnlineProfile.url ↔
      (u ∈ ps.map OnlineProfile.url ∨ (u ≠ [] ∧ u ∈ links.map Prod.snd)) := by
  intro links
  induction links with
  | nil =>
    intro ps u
    simp [merge_hyperlinks]
  | cons l ls ih =>
    intro ps u
    show u ∈ (merge_hyperlinks (mergeStep ps l) ls).map OnlineProfile.url ↔ _
    rw [ih, mergeStep_urls_mem]
    simp only [List.map_cons, List.mem_cons]
    constructor
    · rintro ((h1 | ⟨rfl, hne, hni⟩) | ⟨hne, hmem⟩)
      · exact Or.inl h1
      · exact Or.inr ⟨hne, Or.inl rfl⟩
      · exact Or.inr ⟨hne, Or.inr hmem⟩
    · rintro (h1 | ⟨hne, (rfl | hmem)⟩)
      · exact Or.inl (Or.inl h1)
      · by_cases hin : l.2 ∈ ps.map OnlineProfile.url
        · exact Or.inl (Or.inl hin)
        · exact Or.inl (Or.inr ⟨rfl, hne, hin⟩)
      · exact Or.inr ⟨hne, hmem⟩

theorem mergeStep_urls_nodup {ps : List OnlineProfile} {l : Str × Str}
    (h : (ps.map OnlineProfile.url).Nodup) :
    ((mergeStep ps l).map OnlineProfile.url).Nodup := by
  unfold mergeStep
  split
  case isTrue hc =>
    obtain ⟨hne, hnany⟩ := hc
    rw [List.map_append]
    simp only [List.map_cons, List.map_nil]
    rw [List.nodup_append]
    refine ⟨h, List.nodup_singleton _, ?_⟩
    intro a ha
    simp only [List.mem_singleton]
    intro heq
    subst heq
    apply hnany
    rw [List.any_eq_true]
    obtain ⟨p, hp, hpu⟩ := List.mem_map.1 ha
    exact ⟨p, hp, by simp [hpu]⟩
  case isFalse => exact h

theorem merge_urls_nodup : ∀ (links : List (Str × Str)) (ps : List OnlineProfile),
    (ps.map OnlineProfile.url).Nodup →
    ((merge_hyperlinks ps links).map OnlineProfile.url).Nodup := by
  intro links
  induction links with
  | nil => intro ps h; exact h
  | cons l ls ih =>
    intro ps h
    exact ih (mergeStep ps l) (mergeStep_urls_nodup h)

end Upload

/-- C9: merging hyperlinks into a record appends an `OnlineProfile` labelled
through the URL-classification table exactly when the URL is nonempty and not
already present; consequently merging never creates duplicate URLs, and the
final URLs are exactly the old ones plus the nonempty supplied ones. -/
theorem C9_hyperlink_merge (ps : List OnlineProfile) (links : List (Str × Str)) :
    (∀ l : Str × Str, Upload.mergeStep ps l =
      (if l.2 ≠ [] ∧ (∀ p ∈ ps, p.url ≠ l.2)
       then ps ++ [⟨Extractor.label_url l.2, l.2⟩] else ps)) ∧
    ((ps.map OnlineProfile.url).Nodup →
      ((Upload.merge_hyperlinks ps links).map OnlineProfile.url).Nodup) ∧
    (∀ u, u ∈ (Upload.merge_hyperlinks ps links).map OnlineProfile.url ↔
      (u ∈ ps.map OnlineProfile.url ∨ (u ≠ [] ∧ u ∈ links.map Prod.snd))) := by
  refine ⟨?_, Upload.merge_urls_nodup links ps, fun u => Upload.merge_urls_mem links ps u⟩
  intro l
  unfold Upload.mergeStep
  have hiff : (l.2 ≠ [] ∧ ¬ (ps.any (fun p => p.url = l.2) = true)) ↔
      (l.2 ≠ [] ∧ ∀ p ∈ ps, p.url ≠ l.2) := by
    simp [List.any_eq_true]
  exact if_congr hiff rfl rfl

/-- Witness for C9: merging the spec's example hyperlink into a record already
holding a profile with the same URL creates no duplicate. -/
theorem C9_hyperlink_merge_witness :
    ((Upload.merge_hyperlinks
        [⟨"LinkedIn".data, "https://linkedin.com/in/jdoe".data⟩]
        [("LinkedIn".data, "https://linkedin.com/in/jdoe".data)]).map
      OnlineProfile.url).Nodup :=
  (C9_hyperlink_merge
    [⟨"LinkedIn".data, "https://linkedin.com/in/jdoe".data⟩]
    [("LinkedIn".data, "https://linkedin.com/in/jdoe".data)]).2.1 (by decide)

/-! ### Structure of `splitNl`, `intercalateNl` and `trimStr` -/

theorem splitNl_ne_nil (s : Str) : splitNl s ≠ [] := by
  induction s with
  | nil => simp [splitNl]
  | cons c rest ih =>
    simp only [splitNl]
    split
    · simp
    · cases h : splitNl rest with
      | nil => simp
      | cons a t => simp

theorem splitNl_no_nl : ∀ (s : Str) (l : Str), l ∈ splitNl s → '\n' ∉ l := by
  intro s
  induction s with
  | nil =>
    intro l hl
    simp [splitNl] at hl
    simp [hl]
  | cons c rest ih =>
    intro l hl
    simp only [splitNl] at hl
    by_cases hc : c = '\n'
    · rw [if_pos hc] at hl
      rcases List.mem_cons.1 hl with rfl | h2
      · simp
      · exact ih l h2
    · rw [if_neg hc] at hl
      cases hsp : splitNl rest with
      | nil => exact absurd hsp (splitNl_ne_nil rest)
      | cons a t =>
        rw [hsp] at hl
        rcases List.mem_cons.1 hl with rfl | h2
        · intro hmem
          rcases List.mem_cons.1 hmem with h3 | h3
          · exact hc h3.symm
          · exact ih a (hsp ▸ List.mem_cons_self a t) h3
        · exact ih l (hsp ▸ List.mem_cons.2 (Or.inr h2))

theorem splitNl_no_newline {l : Str} (h : '\n' ∉ l) : splitNl l = [l] := by
  induction l with
  | nil => rfl
  | cons c rest ih =>
    have hc : c ≠ '\n' := fun he => h (he ▸ List.mem_cons_self c rest)
    have h2 : '\n' ∉ rest := fun hm => h (List.mem_cons.2 (Or.inr hm))
    simp only [splitNl, if_neg hc, ih h2]

theorem splitNl_append {l r : Str} (h : '\n' ∉ l) :
    splitNl (l ++ r) = (splitNl r).modifyHead (l ++ ·) := by
  induction l with
  | nil =>
    cases hsp : splitNl r with
    | nil => exact absurd hsp (splitNl_ne_nil r)
    | cons a t => simp [hsp]
  | cons c l ih =>
    have hc : c ≠ '\n' := fun he => h (he ▸ List.mem_cons_self c l)
    have h2 : '\n' ∉ l := fun hm => h (List.mem_cons.2 (Or.inr hm))
    rw [List.cons_append]
    simp only [splitNl, if_neg hc]
    rw [ih h2]
    cases hsp : splitNl r with
    | nil => exact absurd hsp (splitNl_ne_nil r)
    | cons a t => simp

theorem splitNl_nl_cons (r : Str) : splitNl ('\n' :: r) = [] :: splitNl r := by
  simp [splitNl]

theorem intercalateNl_cons_cons (l r : Str) (rs : List Str) :
    intercalateNl (l :: r :: rs) = l ++ '\n' :: intercalateNl (r :: rs) := rfl

theorem splitNl_intercalate : ∀ (c : List Str), c ≠ [] →
    (∀ l ∈ c, '\n' ∉ l) → splitNl (intercalateNl c) = c := by
  intro c
  induction c with
  | nil => intro h; exact absurd rfl h
  | cons l rest ih =>
    intro _ hnl
    cases rest with
    | nil =>
      show splitNl (intercalateNl [l]) = [l]
      exact splitNl_no_newline (hnl l (List.mem_cons_self l []))
    | cons r rs =>
      rw [intercalateNl_cons_cons]
      rw [splitNl_append (hnl l (List.mem_cons_self l (r :: rs)))]
      rw [splitNl_nl_cons]
      rw [ih (by simp) (fun x hx => hnl x (List.mem_cons.2 (Or.inr hx)))]
      simp

theorem trimL_eq_self {s : Str} (h : ∀ c, s.head? = some c → pyIsSpace c = false) :
    trimL s = s := by
  cases s with
  | nil => rfl
  | cons c cs =>
    unfold trimL
    rw [List.dropWhile_cons, if_neg]
    rw [h c rfl]
    simp

theorem trimL_length_le (s : Str) : (trimL s).length ≤ s.length :=
  (List.dropWhile_sublist pyIsSpace).length_le

theorem trimStr_length_le (s : Str) : (trimStr s).length ≤ s.length := by
  unfold trimStr
  rw [List.length_reverse]
  refine le_trans (trimL_length_le _) ?_
  rw [List.length_reverse]
  exact trimL_length_le s

theorem trimL_self_head {s : Str} (h : trimL s = s) :
    ∀ c, s.head? = some c → pyIsSpace c = false := by
  intro c hc
  cases s with
  | nil => simp at hc
  | cons x xs =>
    simp only [List.head?_cons, Option.some.injEq] at hc
    subst hc
    by_contra h2
    rw [Bool.not_eq_false] at h2
    unfold trimL at h
    rw [List.dropWhile_cons, if_pos (by simp [h2])] at h
    have h3 := congrArg List.length h
    have h4 := (List.dropWhile_sublist (l := xs) pyIsSpace).length_le
    simp at h3
    omega

theorem trimStr_self_parts {l : Str} (h : trimStr l = l) :
    trimL l = l ∧ trimL l.reverse = l.reverse := by
  have h1 : trimL l = l := by
    by_contra h2
    have hsub : (trimL l).length < l.length := by
      have hle := trimL_length_le l
      rcases lt_or_eq_of_le hle with hlt | heq
      · exact hlt
      · exfalso
        apply h2
        exact (List.dropWhile_sublist pyIsSpace).eq_of_length heq
    have h3 : (trimStr l).length ≤ (trimL l).length := by
      unfold trimStr
      rw [List.length_reverse]
      refine le_trans (trimL_length_le _) ?_
      rw [List.length_reverse]
    have h4 := congrArg List.length h
    omega
  refine ⟨h1, ?_⟩
  unfold trimStr at h
  rw [h1] at h
  have h5 := congrArg List.reverse h
  rw [List.reverse_reverse] at h5
  exact h5

theorem trimStr_head_last {l : Str} (h : trimStr l = l) :
    (∀ c, l.head? = some c → pyIsSpace c = false) ∧
    (∀ c, l.getLast? = some c → pyIsSpace c = false) := by
  obtain ⟨h1, h2⟩ := trimStr_self_parts h
  refine ⟨trimL_self_head h1, ?_⟩
  intro c hc
  refine trimL_self_head h2 c ?_
  rw [List.head?_reverse]
  exact hc

theorem trimL_intercalate : ∀ (c : List Str),
    (∀ l ∈ c, ∀ ch, l.head? = some ch → pyIsSpace ch = false) →
    trimL (intercalateNl c) = intercalateNl (c.dropWhile (· = [])) := by
  intro c
  induction c with
  | nil => intro _; rfl
  | cons l rest ih =>
    intro h
    by_cases hl : l = []
    · subst hl
      cases rest with
      | nil => rfl
      | cons r rs =>
        rw [intercalateNl_cons_cons]
        have h1 : trimL (([] : Str) ++ '\n' :: intercalateNl (r :: rs)) =
            trimL (intercalateNl (r :: rs)) := by
          show trimL ('\n' :: intercalateNl (r :: rs)) = _
          unfold trimL
          rw [List.dropWhile_cons, if_pos (by simp [pyIsSpace])]
        rw [h1, ih (fun x hx => h x (List.mem_cons.2 (Or.inr hx)))]
        have h2 : (([] : Str) :: r :: rs).dropWhile (· = []) =
            (r :: rs).dropWhile (· = []) := by
          rw [List.dropWhile_cons, if_pos (by simp)]
        rw [h2]
    · obtain ⟨ch, l', rfl⟩ := List.exists_cons_of_ne_nil hl
      have hch : pyIsSpace ch = false := h (ch :: l') (List.mem_cons_self _ _) ch rfl
      have hdrop : ((ch :: l') :: rest).dropWhile (· = []) = (ch :: l') :: rest := by
        rw [List.dropWhile_cons, if_neg (by simp)]
      rw [hdrop]
      cases rest with
      | nil =>
        show trimL (ch :: l') = _
        exact trimL_eq_self (fun c2 hc2 => by
          simp only [List.head?_cons, Option.some.injEq] at hc2
          subst hc2
          exact hch)
      | cons r rs =>
        rw [intercalateNl_cons_cons]
        refine trimL_eq_self (fun c2 hc2 => ?_)
        simp only [List.cons_append, List.head?_cons, Option.some.injEq] at hc2
        subst hc2
        exact hch

theorem intercalateNl_append_singleton : ∀ (xs : List Str) (y : Str), xs ≠ [] →
    intercalateNl (xs ++ [y]) = intercalateNl xs ++ '\n' :: y := by
  intro xs
  induction xs with
  | nil => intro y hy; exact absurd rfl hy
  | cons l rest ih =>
    intro y _
    cases rest with
    | nil => rfl
    | cons r rs =>
      show intercalateNl (l :: ((r :: rs) ++ [y])) = _
      rw [show (r :: rs) ++ [y] = r :: (rs ++ [y]) from rfl]
      rw [intercalateNl_cons_cons]
      rw [show r :: (rs ++ [y]) = (r :: rs) ++ [y] from rfl]
      rw [ih y (by simp)]
      rw [intercalateNl_cons_cons]
      simp [List.append_assoc]

theorem intercalateNl_reverse : ∀ c : List Str,
    (intercalateNl c).reverse = intercalateNl ((c.map List.reverse).reverse) := by
  intro c
  induction c with
  | nil => rfl
  | cons l rest ih =>
    cases rest with
    | nil => rfl
    | cons r rs =>
      rw [intercalateNl_cons_cons, List.reverse_append, List.reverse_cons, ih]
      have hne : (((r :: rs).map List.reverse).reverse : List Str) ≠ [] := by simp
      rw [show ((l :: r :: rs).map List.reverse).reverse =
          ((r :: rs).map List.reverse).reverse ++ [l.reverse] by simp]
      rw [intercalateNl_append_singleton _ _ hne]
      simp [List.append_assoc]

theorem dropWhile_empt_map_reverse (xs : List Str) :
    (xs.map List.reverse).dropWhile (· = []) =
      (xs.dropWhile (· = [])).map List.reverse := by
  induction xs with
  | nil => rfl
  | cons x t ih =>
    simp only [List.map_cons, List.dropWhile_cons]
    by_cases hx : x = []
    · subst hx
      simp [ih]
    · simp [List.reverse_eq_nil_iff, hx]

theorem trimStr_intercalate (c : List Str)
    (hhead : ∀ l ∈ c, ∀ ch, l.head? = some ch → pyIsSpace ch = false)
    (hlast : ∀ l ∈ c, ∀ ch, l.getLast? = some ch → pyIsSpace ch = false) :
    trimStr (intercalateNl c) =
      intercalateNl (((c.dropWhile (· = [])).reverse.dropWhile (· = [])).reverse) := by
  unfold trimStr
  rw [trimL_intercalate c hhead]
  have hsub₁ : ∀ l ∈ c.dropWhile (· = []), l ∈ c :=
    fun l hl => (List.dropWhile_sublist _).subset hl
  rw [intercalateNl_reverse (c.dropWhile (· = []))]
  have hmrev : ((c.dropWhile (· = [])).map List.reverse).reverse =
      (c.dropWhile (· = [])).reverse.map List.reverse := by
    rw [List.map_reverse]
  rw [hmrev]
  rw [trimL_intercalate _ (by
    intro l hl ch hch
    obtain ⟨l₀, hl₀, rfl⟩ := List.mem_map.1 hl
    rw [List.head?_reverse] at hch
    exact hlast l₀ (hsub₁ _ (List.mem_reverse.1 hl₀)) ch hch)]
  rw [dropWhile_empt_map_reverse]
  rw [intercalateNl_reverse]
  congr 1
  simp [List.map_map, List.map_id]

theorem filter_dropWhile_empt (c : List Str) :
    (c.dropWhile (· = [])).filter (· ≠ []) = c.filter (· ≠ []) := by
  induction c with
  | nil => rfl
  | cons x t ih =>
    rw [List.dropWhile_cons]
    by_cases hx : x = []
    · subst hx
      rw [if_pos (by simp)]
      rw [ih]
      symm
      rw [List.filter_cons]
      simp
    · rw [if_neg (by simp [hx])]

theorem contentLines_joinStrip (c : List Str)
    (htrim : ∀ l ∈ c, trimStr l = l) (hnl : ∀ l ∈ c, '\n' ∉ l) :
    Extractor.contentLines (Extractor.joinStrip c) = c.filter (· ≠ []) := by
  have hhead : ∀ l ∈ c, ∀ ch, l.head? = some ch → pyIsSpace ch = false :=
    fun l hl => (trimStr_head_last (htrim l hl)).1
  have hlast : ∀ l ∈ c, ∀ ch, l.getLast? = some ch → pyIsSpace ch = false :=
    fun l hl => (trimStr_head_last (htrim l hl)).2
  unfold Extractor.joinStrip
  rw [trimStr_intercalate c hhead hlast]
  have hc₂sub : ∀ l ∈ ((c.dropWhile (· = [])).reverse.dropWhile (· = [])).reverse,
      l ∈ c := by
    intro l hl
    rw [List.mem_reverse] at hl
    have h1 := (List.dropWhile_sublist _).subset hl
    rw [List.mem_reverse] at h1
    exact (List.dropWhile_sublist _).subset h1
  by_cases h2 : ((c.dropWhile (· = [])).reverse.dropWhile (· = [])).reverse = []
  · rw [h2]
    have hlhs : Extractor.contentLines (intercalateNl []) = [] := rfl
    rw [hlhs]
    symm
    rw [List.filter_eq_nil_iff]
    intro a ha
    simp only [ne_eq, decide_not, Bool.not_eq_true', decide_eq_false_iff_not, not_not]
    rw [List.reverse_eq_nil_iff, List.dropWhile_eq_nil_iff] at h2
    by_cases hd : c.dropWhile (· = []) = []
    · rw [List.dropWhile_eq_nil_iff] at hd
      exact of_decide_eq_true (hd a ha)
    · exfalso
      have hlen : 0 < (c.dropWhile (· = [])).length := by
        cases hc : c.dropWhile (· = []) with
        | nil => exact absurd hc hd
        | cons u v => simp [hc]
      have hz := List.dropWhile_get_zero_not (p := fun l => decide (l = []))
        (c) hlen
      have hmem : (c.dropWhile (· = [])).get ⟨0, hlen⟩ ∈ c.dropWhile (· = []) :=
        List.get_mem _ 0 hlen
      have hrev : (c.dropWhile (· = [])).get ⟨0, hlen⟩ ∈ (c.dropWhile (· = [])).reverse :=
        List.mem_reverse.2 hmem
      have := h2 _ hrev
      rw [this] at hz
      simp at hz
  · unfold Extractor.contentLines
    rw [splitNl_intercalate _ h2 (fun l hl => hnl l (hc₂sub l hl))]
    rw [List.filter_reverse, filter_dropWhile_empt, List.filter_reverse,
      List.reverse_reverse, filter_dropWhile_empt]

/-! ### The section-splitting loop as a segmentation -/

namespace Extractor

theorem applySegs_cons (d : List (String × Str)) (p : String × List Str)
    (sl : List (String × List Str)) :
    applySegs d (p :: sl) = applySegs (dictSet d p.1 (joinStrip p.2)) sl := rfl

theorem splitLoop_eq_applySegs : ∀ (lines : List Str) (secs : List (String × Str))
    (cur : String) (content : List Str),
    splitLoop secs cur content lines = applySegs secs (segsLoop cur content lines) := by
  intro lines
  induction lines with
  | nil => intro secs cur content; rfl
  | cons line rest ih =>
    intro secs cur content
    show splitLoop secs cur content (line :: rest) =
      applySegs secs (segsLoop cur content (line :: rest))
    unfold splitLoop segsLoop
    cases hdet : detectSection line with
    | some s =>
      rw [applySegs_cons]
      exact ih _ _ _
    | none => exact ih _ _ _

theorem detectSection_mem {line : Str} {s : String} (h : detectSection line = some s) :
    s ∈ SECTION_KEYS := List.mem_of_find?_eq_some h

theorem segsLoop_labels : ∀ (lines : List Str) (cur : String) (content : List Str)
    (p : String × List Str), p ∈ segsLoop cur content lines →
    p.1 = cur ∨ p.1 ∈ SECTION_KEYS := by
  intro lines
  induction lines with
  | nil =>
    intro cur content p hp
    simp only [segsLoop, List.mem_singleton] at hp
    subst hp
    exact Or.inl rfl
  | cons line rest ih =>
    intro cur content p hp
    unfold segsLoop at hp
    cases hdet : detectSection line with
    | some s =>
      rw [hdet] at hp
      rcases List.mem_cons.1 hp with rfl | h2
      · exact Or.inl rfl
      · rcases ih s [line] p h2 with h3 | h3
        · exact Or.inr (h3 ▸ detectSection_mem hdet)
        · exact Or.inr h3
    | none =>
      rw [hdet] at hp
      exact ih cur (content ++ [line]) p hp

theorem segsLoop_flatten : ∀ (lines : List Str) (cur : String) (content : List Str),
    (segsLoop cur content lines).flatMap Prod.snd = content ++ lines := by
  intro lines
  induction lines with
  | nil =>
    intro cur content
    simp [segsLoop]
  | cons line rest ih =>
    intro cur content
    unfold segsLoop
    cases hdet : detectSection line with
    | some s =>
      rw [List.flatMap_cons, ih s [line]]
      rfl
    | none =>
      rw [ih cur (content ++ [line])]
      simp

theorem segsLoop_content_mem : ∀ (lines : List Str) (cur : String) (content : List Str)
    (p : String × List Str), p ∈ segsLoop cur content lines →
    ∀ l ∈ p.2, l ∈ content ++ lines := by
  intro lines cur content p hp l hl
  rw [← segsLoop_flatten lines cur content]
  exact List.mem_flatMap.2 ⟨p, hp, hl⟩

theorem keys_dictSet (d : List (String × Str)) (k : String) (v : Str) :
    (dictSet d k v).map Prod.fst = d.map Prod.fst := by
  induction d with
  | nil => rfl
  | cons q d ih =>
    simp only [dictSet, List.map_cons] at ih ⊢
    by_cases hq : q.1 = k
    · rw [if_pos hq, ih]
      simp [hq]
    · rw [if_neg hq, ih]

theorem dictSet_of_not_mem {d : List (String × Str)} {k : String} (v : Str)
    (h : k ∉ d.map Prod.fst) : dictSet d k v = d := by
  induction d with
  | nil => rfl
  | cons q d ih =>
    simp only [List.map_cons, List.mem_cons] at h
    push_neg at h
    simp only [dictSet, List.map_cons]
    rw [if_neg (fun he => h.1 he.symm)]
    have h2 := ih h.2
    unfold dictSet at h2
    rw [h2]

theorem allContentLines_cons (q : String × Str) (d : List (String × Str)) :
    allContentLines (q :: d) = contentLines q.2 ++ allContentLines d := rfl

theorem allContentLines_dictSet {d : List (String × Str)} {k : String} {v : Str}
    (hnd : (d.map Prod.fst).Nodup) (hmem : k ∈ d.map Prod.fst)
    (hk : ∀ q ∈ d, q.1 = k → contentLines q.2 = []) :
    List.Perm (allContentLines (dictSet d k v)) (allContentLines d ++ contentLines v) := by
  induction d with
  | nil => simp at hmem
  | cons q d ih =>
    simp only [List.map_cons, List.nodup_cons] at hnd
    by_cases hq : q.1 = k
    · have hknotin : k ∉ d.map Prod.fst := hq ▸ hnd.1
      simp only [dictSet, List.map_cons, if_pos hq]
      have hrest : d.map (fun p => if p.1 = k then (k, v) else p) = d := by
        have := dictSet_of_not_mem (d := d) v hknotin
        unfold dictSet at this
        exact this
      rw [hrest]
      rw [allContentLines_cons, allContentLines_cons]
      rw [hk q (List.mem_cons_self q d) hq]
      rw [List.nil_append]
      show List.Perm (contentLines v ++ allContentLines d)
        (allContentLines d ++ contentLines v)
      exact List.perm_append_comm
    · simp only [dictSet, List.map_cons, if_neg hq]
      rw [allContentLines_cons]
      have hmem2 : k ∈ d.map Prod.fst := by
        rcases List.mem_cons.1 hmem with h2 | h2
        · exact absurd h2.symm hq
        · exact h2
      have ih2 := ih hnd.2 hmem2 (fun q2 hq2 => hk q2 (List.mem_cons.2 (Or.inr hq2)))
      unfold dictSet at ih2
      rw [allContentLines_cons]
      rw [List.append_assoc]
      exact List.Perm.append_left (contentLines q.2) ih2

theorem allContentLines_applySegs : ∀ (sl : List (String × List Str))
    (d : List (String × Str)),
    (d.map Prod.fst).Nodup → (sl.map Prod.fst).Nodup →
    (∀ p ∈ sl, p.1 ∈ d.map Prod.fst) →
    (∀ p ∈ sl, ∀ q ∈ d, q.1 = p.1 → contentLines q.2 = []) →
    List.Perm (allContentLines (applySegs d sl))
      (allContentLines d ++ sl.flatMap (fun p => contentLines (joinStrip p.2))) := by
  intro sl
  induction sl with
  | nil =>
    intro d _ _ _ _
    simp [applySegs]
  | cons p sl ih =>
    intro d hnd hsl hmem hvals
    rw [applySegs_cons]
    simp only [List.map_cons, List.nodup_cons] at hsl
    have hnd2 : ((dictSet d p.1 (joinStrip p.2)).map Prod.fst).Nodup := by
      rw [keys_dictSet]; exact hnd
    have hmem2 : ∀ p2 ∈ sl, p2.1 ∈ (dictSet d p.1 (joinStrip p.2)).map Prod.fst := by
      intro p2 hp2
      rw [keys_dictSet]
      exact hmem p2 (List.mem_cons.2 (Or.inr hp2))
    have hvals2 : ∀ p2 ∈ sl, ∀ q ∈ dictSet d p.1 (joinStrip p.2),
        q.1 = p2.1 → contentLines q.2 = [] := by
      intro p2 hp2 q hq hq2
      unfold dictSet at hq
      obtain ⟨q0, hq0, hq0e⟩ := List.mem_map.1 hq
      by_cases hc : q0.1 = p.1
      · rw [if_pos hc] at hq0e
        exfalso
        apply hsl.1
        rw [← hq0e] at hq2
        simp only at hq2
        rw [hq2]
        exact List.mem_map.2 ⟨p2, hp2, rfl⟩
      · rw [if_neg hc] at hq0e
        subst hq0e
        exact hvals p2 (List.mem_cons.2 (Or.inr hp2)) q0 hq0 hq2
    have ihp := ih (dictSet d p.1 (joinStrip p.2)) hnd2 hsl.2 hmem2 hvals2
    refine ihp.trans ?_
    have hstep := allContentLines_dictSet (v := joinStrip p.2) hnd
      (hmem p (List.mem_cons_self p sl))
      (fun q hq hq2 => hvals p (List.mem_cons_self p sl) q hq hq2)
    refine (List.Perm.append_right _ hstep).trans ?_
    rw [List.flatMap_cons, List.append_assoc]

end Extractor

theorem flatMap_congr_mem {α β : Type} (l : List α) (f g : α → List β)
    (h : ∀ a ∈ l, f a = g a) : l.flatMap f = l.flatMap g := by
  induction l with
  | nil => rfl
  | cons x xs ih =>
    rw [List.flatMap_cons, List.flatMap_cons, h x (List.mem_cons_self x xs),
      ih (fun a ha => h a (List.mem_cons.2 (Or.inr ha)))]

theorem filter_flatMap {α β : Type} (l : List α) (f : α → List β) (p : β → Bool) :
    (l.flatMap f).filter p = l.flatMap (fun a => (f a).filter p) := by
  induction l with
  | nil => rfl
  | cons x xs ih => simp [List.flatMap_cons, List.filter_append, ih]

/-- Counterexample for C3: on the input whose lines are
`["skills:", "python", "skills:", "java"]` — where the section name `skills`
is detected as a header twice — the non-empty line `"python"` appears in no
section's content: the second `skills` header overwrites the first block, so
the section contents do not partition the input lines. -/
theorem C3_duplicate_header_drops_lines :
    "python".data ∈ (splitNl "skills:\npython\nskills:\njava".data).filter (· ≠ []) ∧
    "python".data ∉
      Extractor.allContentLines
        (Extractor.split_resume_by_sections "skills:\npython\nskills:\njava".data) := by
  exact ⟨by decide, by decide⟩

/-- C3 as amended: the section contents partition the non-empty input lines
provided no section label heads two different segments (each section name is
detected as a header at most once, counting the implicit initial `contact`
segment) and every line carries no leading or trailing whitespace (the saved
contents are stripped, which would otherwise alter boundary lines).  Under
those hypotheses, the concatenation of all stored section contents is a
permutation of the non-empty input lines — none duplicated or dropped, each
line belonging to the segment opened by the most recent preceding header
(default `contact`). -/
theorem C3_partition_without_duplicate_headers (text : Str)
    (htrim : ∀ l ∈ splitNl text, trimStr l = l)
    (hnodup : ((Extractor.segments text).map Prod.fst).Nodup) :
    List.Perm (Extractor.allContentLines (Extractor.split_resume_by_sections text))
      ((splitNl text).filter (· ≠ [])) := by
  unfold Extractor.split_resume_by_sections
  rw [Extractor.splitLoop_eq_applySegs]
  unfold Extractor.segments at hnodup
  have hkeys : ∀ p ∈ Extractor.segsLoop "contact" [] (splitNl text),
      p.1 ∈ Extractor.initSections.map Prod.fst := by
    intro p hp
    rcases Extractor.segsLoop_labels _ _ _ p hp with h1 | h1
    · rw [h1]; decide
    · have h2 : ∀ s ∈ Extractor.SECTION_KEYS,
          s ∈ Extractor.initSections.map Prod.fst := by decide
      exact h2 p.1 h1
  have hvals : ∀ p ∈ Extractor.segsLoop "contact" [] (splitNl text),
      ∀ q ∈ Extractor.initSections, q.1 = p.1 → Extractor.contentLines q.2 = [] := by
    intro p _ q hq _
    have h2 : ∀ q ∈ Extractor.initSections, Extractor.contentLines q.2 = [] := by decide
    exact h2 q hq
  have hperm := Extractor.allContentLines_applySegs
    (Extractor.segsLoop "contact" [] (splitNl text)) Extractor.initSections
    (by decide) hnodup hkeys hvals
  refine hperm.trans ?_
  have hinit : Extractor.allContentLines Extractor.initSections = [] := by decide
  rw [hinit, List.nil_append]
  have hcontent : ∀ p ∈ Extractor.segsLoop "contact" [] (splitNl text),
      Extractor.contentLines (Extractor.joinStrip p.2) = p.2.filter (· ≠ []) := by
    intro p hp
    refine contentLines_joinStrip p.2 ?_ ?_
    · intro l hl
      have hmem := Extractor.segsLoop_content_mem _ _ _ p hp l hl
      rw [List.nil_append] at hmem
      exact htrim l hmem
    · intro l hl
      have hmem := Extractor.segsLoop_content_mem _ _ _ p hp l hl
      rw [List.nil_append] at hmem
      exact splitNl_no_nl text l hmem
  rw [flatMap_congr_mem _
    (fun (p : String × List Str) => Extractor.contentLines (Extractor.joinStrip p.2))
    (fun (p : String × List Str) => p.2.filter (· ≠ [])) hcontent]
  rw [← filter_flatMap (Extractor.segsLoop "contact" [] (splitNl text)) Prod.snd
    (fun (l : Str) => decide (l ≠ []))]
  rw [Extractor.segsLoop_flatten, List.nil_append]

/-- Witness for C3 as amended, on a three-line resume with a single `skills`
header. -/
theorem C3_partition_without_duplicate_headers_witness :
    List.Perm (Extractor.allContentLines
        (Extractor.split_resume_by_sections "john\nskills:\npython".data))
      ((splitNl "john\nskills:\npython".data).filter (· ≠ [])) :=
  C3_partition_without_duplicate_headers "john\nskills:\npython".data
    (by decide) (by decide)
